import Mathlib

/-!
Verification of `sapfo-dl` (`src/download.py`) against its specification.

The Python source is shallowly embedded over `List Char` (Python `str`),
with `String` wrappers at the API boundary.  Python exceptions are embedded
as `Except String`.  The regex calls in the source use fixed, concrete
patterns, so each one is embedded as a deterministic scanner implementing
exactly the backtracking semantics of that pattern (leftmost match; greedy
`*`/`+` try longest first, lazy `*?`/`+?` shortest first).

One behaviour of the source matters throughout `sanitize_body`: the calls
`re.sub(pat, repl, text, re.IGNORECASE)` pass `re.IGNORECASE` (integer
value 2) as the positional `count` argument of `re.sub`, not as `flags`.
Hence each substitution in `sanitize_body` replaces at most 2 occurrences
and matches case-sensitively.  The embedding reproduces this.
-/

namespace SapfoDl

/-- Python `\s` for the ASCII whitespace characters (the tags strings this
tool handles are ASCII). -/
def pySpace (c : Char) : Bool :=
  c = ' ' || c = '\t' || c = '\n' || c = '\r' || c = '\x0b' || c = '\x0c'

/-- Decimal digit test, Python `\d` (ASCII). -/
def pyDigit (c : Char) : Bool :=
  '0' ≤ c && c ≤ '9'

/-- Python `int(...)` on a string of decimal digits. -/
def parseNat (cs : List Char) : Nat :=
  cs.foldl (fun a c => 10 * a + (c.toNat - 48)) 0

/-- Python `str(num)` for a natural number. -/
def natStr (n : Nat) : List Char :=
  (Nat.repr n).data

/-- Python `str.zfill(w)`: left-pad with `'0'` to width `w`. -/
def zfill (w : Nat) (cs : List Char) : List Char :=
  List.replicate (w - cs.length) '0' ++ cs

/-- Python `str.split(sep)` for a single-character separator: split at every
occurrence, keeping empty pieces (`''.split(sep) == ['']`). -/
def splitOnChar (sep : Char) : List Char → List (List Char)
  | [] => [[]]
  | c :: cs =>
      if c = sep then
        [] :: splitOnChar sep cs
      else
        match splitOnChar sep cs with
        | [] => [[c]]
        | t :: ts => (c :: t) :: ts

/-- Python `sep.join(pieces)` for a single-character separator. -/
def joinChar (sep : Char) : List (List Char) → List Char
  | [] => []
  | [p] => p
  | p :: ps => p ++ sep :: joinChar sep ps

/-- One step of Python `str.replace(old, new)`: fuelled scanner replacing
every non-overlapping occurrence of `old` left to right (`old` is nonempty
at every call site). -/
def replaceAllGo (old new : List Char) : Nat → List Char → List Char
  | _, [] => []
  | 0, cs => cs
  | fuel + 1, c :: cs =>
      if old.isPrefixOf (c :: cs) then
        new ++ replaceAllGo old new fuel (List.drop old.length (c :: cs))
      else
        c :: replaceAllGo old new fuel cs

/-- Python `str.replace(old, new)`. -/
def replaceAll (s old new : List Char) : List Char :=
  replaceAllGo old new s.length s

/-! ## URL expander (`expand_url`, `src/download.py` lines 14-36) -/

/-- Try to match the dot-range regex `\{(0*)(\d+)\.\.(\d+)\}` at the start
of `cs`.  Backtracking on the concrete pattern reduces to: `{`, then a
maximal nonempty run of digits (the greedy `(0*)(\d+)` splits it into its
leading zeros and the rest, except that `(\d+)` keeps at least one digit
when the run is all zeros), then `..`, then a maximal nonempty digit run,
then `}`.  Returns the two capture groups `(0*)`, `(\d+)` of the start, the
end digits, and the whole matched text. -/
def dotMatchAt (cs : List Char) : Option (List Char × List Char × List Char × List Char) :=
  match cs with
  | '{' :: rest =>
      let run1 := rest.takeWhile pyDigit
      if run1.isEmpty then none
      else
        match rest.drop run1.length with
        | '.' :: '.' :: rest2 =>
            let run2 := rest2.takeWhile pyDigit
            if run2.isEmpty then none
            else
              match rest2.drop run2.length with
              | '}' :: _ =>
                  let zeros := run1.takeWhile (· = '0')
                  let pad := if zeros.length = run1.length then zeros.dropLast else zeros
                  let start := run1.drop pad.length
                  some (pad, start, run2, '{' :: run1 ++ '.' :: '.' :: run2 ++ ['}'])
              | _ => none
        | _ => none
  | _ => none

/-- `re.search(r'\{(0*)(\d+)\.\.(\d+)\}', s)`: leftmost match. -/
def dotSearch : List Char → Option (List Char × List Char × List Char × List Char)
  | [] => none
  | c :: cs =>
      match dotMatchAt (c :: cs) with
      | some r => some r
      | none => dotSearch cs

/-- Try to match the comma-expansion regex `\{(.+?)\}` at the start of
`cs`: `{`, then the lazy `(.+?)` takes the shortest nonempty,
newline-free span that is followed by `}`.  Returns the capture group. -/
def commaMatchAt (cs : List Char) : Option (List Char) :=
  match cs with
  | '{' :: c1 :: rest =>
      if c1 = '\n' then none
      else
        let rec scan (acc : List Char) : List Char → Option (List Char)
          | [] => none
          | c :: cs =>
              if c = '}' then some acc.reverse
              else if c = '\n' then none
              else scan (c :: acc) cs
        scan [c1] rest
  | _ => none

/-- `re.search(r'\{(.+?)\}', s)`: leftmost match; returns the capture group. -/
def commaSearch : List Char → Option (List Char)
  | [] => none
  | c :: cs =>
      match commaMatchAt (c :: cs) with
      | some r => some r
      | none => commaSearch cs

/-- `expand_url` (`src/download.py` lines 14-36) on `List Char`.  The
`raise` on a descending dot range is embedded as `Except.error`. -/
def expandUrlCore (rawUrl : List Char) : Except String (List (List Char)) :=
  match dotSearch rawUrl, commaSearch rawUrl with
  | none, none => Except.ok [rawUrl]
  | some (pad, startDigits, endDigits, old), _ =>
      let s := parseNat startDigits
      let e := parseNat endDigits
      if s > e then
        Except.error "Negative dotexpansion not supported"
      else
        let new := (List.range (e + 1 - s)).map fun i => zfill (pad.length + 1) (natStr (s + i))
        Except.ok (new.map fun n => replaceAll rawUrl old n)
  | none, some content =>
      let old := '{' :: content ++ ['}']
      let new := splitOnChar ',' content
      Except.ok (new.map fun n => replaceAll rawUrl old n)

/-- `expand_url` on `String`. -/
def expandUrl (rawUrl : String) : Except String (List String) :=
  (expandUrlCore rawUrl.data).map (List.map List.asString)

/-! ## Body sanitizer (`sanitize_body`, `src/download.py` lines 39-46) -/

/-- `'/'.join(url.split('/')[:-1]) + '/'` (`src/download.py` line 41). -/
def baseUrlOf (url : List Char) : List Char :=
  joinChar '/' (splitOnChar '/' url).dropLast ++ ['/']

/-- The literal part of the pattern `<a href="(?!http://|www)`. -/
def aHrefLit : List Char := "<a href=\"".data

/-- Does the pattern `<a href="(?!http://|www)` match at the start of `cs`?
The lookahead is zero-width: the match itself is just the 9-character
literal. -/
def aHrefMatchAt (cs : List Char) : Bool :=
  aHrefLit.isPrefixOf cs &&
    !("http://".data.isPrefixOf (cs.drop 9)) && !("www".data.isPrefixOf (cs.drop 9))

/-- `re.sub(r'<a href="(?!http://|www)', '<a href="' + baseurl, text, 2)`
(`src/download.py` line 42; `re.IGNORECASE` is the positional `count`
argument, so at most `budget = 2` replacements, case-sensitive).  Fuelled
left-to-right scan; `re.sub` resumes after the end of each match. -/
def subAHrefGo (baseurl : List Char) : Nat → Nat → List Char → List Char
  | _, _, [] => []
  | _, 0, cs => cs
  | 0, _ + 1, cs => cs
  | fuel + 1, budget + 1, c :: cs =>
      if aHrefMatchAt (c :: cs) then
        aHrefLit ++ baseurl ++ subAHrefGo baseurl fuel budget (List.drop 8 cs)
      else
        c :: subAHrefGo baseurl fuel (budget + 1) cs

def subAHref (baseurl text : List Char) : List Char :=
  subAHrefGo baseurl text.length 2 text

/-- The lazy `.+?` followed by the closing `"`: the shortest nonempty
newline-free span of `cs` ending right before a `"`.  `m` counts content
characters already taken; returns the total content length. -/
def quoteScan (m : Nat) : List Char → Option Nat
  | [] => none
  | c :: cs =>
      if c = '"' then some m
      else if c = '\n' then none
      else quoteScan (m + 1) cs

/-- Try `ATTR=".+?"` (with `attrEq` the 6-character literal `ATTR="`) at
the start of `rest`; on success return the total matched length
`6 + content + 1`. -/
def attrTailMatch (attrEq rest : List Char) : Option Nat :=
  if attrEq.isPrefixOf rest then
    match rest.drop 6 with
    | [] => none
    | c1 :: rest2 =>
        if c1 = '\n' then none
        else
          match quoteScan 1 rest2 with
          | some m => some (6 + m + 1)
          | none => none
  else none

/-- The lazy `[^>]*?` of `(<font [^>]*?)ATTR=".+?"`: grow the gap one
non-`'>'` character at a time, trying `ATTR=".+?"` at each size `k`
(shortest first).  On success returns `(keep, skip)` where group 1 has
length `keep = 6 + k` and the dropped `ATTR="…"` part has length `skip`. -/
def fontScanK (attrEq : List Char) : Nat → List Char → Option (Nat × Nat)
  | k, [] =>
      match attrTailMatch attrEq [] with
      | some skip => some (6 + k, skip)
      | none => none
  | k, c :: rest =>
      match attrTailMatch attrEq (c :: rest) with
      | some skip => some (6 + k, skip)
      | none => if c = '>' then none else fontScanK attrEq (k + 1) rest

/-- Try to match `(<font [^>]*?)ATTR=".+?"` at the start of `cs`.  On
success returns `(keep, skip)`: the match is `cs.take (keep + skip)` and
group 1 is `cs.take keep`. -/
def fontMatchAt (attrEq : List Char) (cs : List Char) : Option (Nat × Nat) :=
  if "<font ".data.isPrefixOf cs then fontScanK attrEq 0 (cs.drop 6)
  else none

/-- `re.sub(r'(<font [^>]*?)ATTR=".+?"', r'\1', text, 2)`
(`src/download.py` lines 44-45; again `re.IGNORECASE` is the positional
`count`, so at most 2 replacements, case-sensitive).  The replacement is
group 1, i.e. the `ATTR="…"` part of the match is dropped. -/
def subFontGo (attrEq : List Char) : Nat → Nat → List Char → List Char
  | _, _, [] => []
  | _, 0, cs => cs
  | 0, _ + 1, cs => cs
  | fuel + 1, budget + 1, c :: cs =>
      match fontMatchAt attrEq (c :: cs) with
      | some (keep, skip) =>
          (c :: cs).take keep ++ subFontGo attrEq fuel budget ((c :: cs).drop (keep + skip))
      | none => c :: subFontGo attrEq fuel (budget + 1) cs

def subFont (attrEq text : List Char) : List Char :=
  subFontGo attrEq text.length 2 text

/-- `sanitize_body(text, url)` (`src/download.py` lines 39-46): rewrite
relative `<a href="` links against the page's base URL, then strip
`face="…"` and `size="…"` from `<font>` tags — each substitution capped at
2 replacements and case-sensitive because `re.IGNORECASE` is passed as
`re.sub`'s `count` argument. -/
def sanitizeBodyCore (text url : List Char) : List Char :=
  let baseurl := baseUrlOf url
  let t1 := subAHref baseurl text
  let t2 := subFont "face=\"".data t1
  subFont "size=\"".data t2

/-- `sanitize_body` on `String`. -/
def sanitizeBody (text url : String) : String :=
  (sanitizeBodyCore text.data url.data).asString

/-! ## Config-entry selection (`download_page`, `src/download.py` lines 49-55)

`download_page` starts with `for urlprefix in entries: if
re.match(urlprefix, url, re.IGNORECASE): settings = entries[urlprefix];
break` and a `for…else` raising `'No matching config entry'`.  Here the
third argument of `re.match` really is `flags`, so the match is anchored
at the start of the URL and case-insensitive.  The config dict is
embedded as an association list in iteration order.  The entries'
patterns are URL prefixes (per the config format), so `re.match` on a
metacharacter-free pattern is a case-insensitive prefix test, which is
how the matcher is embedded. -/

/-- `re.match(urlprefix, url, re.IGNORECASE)` for a metacharacter-free
pattern: case-insensitive prefix test. -/
def reMatchCI (pat url : List Char) : Bool :=
  (pat.map Char.toLower).isPrefixOf (url.map Char.toLower)

/-- The `for…else` entry lookup of `download_page`: first entry whose
pattern matches wins, in iteration order; no match raises. -/
def findEntry {α : Type} (entries : List (List Char × α)) (url : List Char) :
    Except String α :=
  match entries with
  | [] => Except.error "No matching config entry"
  | (pat, v) :: rest => if reMatchCI pat url then Except.ok v else findEntry rest url

/-! ## Page writer (`save_pages` / `gen_controls`, `src/download.py` lines 89-112) -/

/-- Python `'{:03}'.format(k)`: decimal, zero-padded to width 3. -/
def pad3 (k : Nat) : List Char :=
  zfill 3 (natStr k)

/-- `(name + ' - Page {:03}.html').format(k)` (`src/download.py` lines
105, 108, 111), for a `name` without brace characters. -/
def pageFileName (name : List Char) (k : Nat) : List Char :=
  name ++ " - Page ".data ++ pad3 k ++ ".html".data

/-- The output filename chosen by `save_pages` (`src/download.py` lines
94-97) for page index `n` (0-based) of `total` pages: the page-number
suffix appears only when `total > 1`. -/
def outFileName (name : List Char) (n total : Nat) : List Char :=
  if total > 1 then pageFileName name (n + 1)
  else name ++ ".html".data

/-- `gen_controls(name, n, pagenum)` (`src/download.py` lines 101-112):
the navigation fragment for 0-based page `n` of `pagenum` pages. -/
def genControls (name : List Char) (n pagenum : Nat) : List Char :=
  if pagenum = 1 then
    "<div class=\"controls\"></div>".data
  else
    let insert :=
      (if n > 0 then
        "<a href=\"".data ++ pageFileName name n ++ "\"><-- Prev</a> | ".data
      else []) ++
      "  <strong>Page ".data ++ natStr (n + 1) ++ "/".data ++ natStr pagenum ++
      "</strong>  ".data ++
      (if n < pagenum - 1 then
        " | <a href=\"".data ++ pageFileName name (n + 2) ++ "\">Next --></a>".data
      else [])
    "<div class=\"controls\">".data ++ insert ++ "</div>".data

/-! ## Metadata builder (`gen_metadata`, `src/download.py` lines 115-120) -/

/-- A match of the separator regex `\s*,\s*` at the start of `cs`:
greedy whitespace, a comma, greedy whitespace; returns the remainder. -/
def sepMatch (cs : List Char) : Option (List Char) :=
  match cs.dropWhile pySpace with
  | ',' :: r => some (r.dropWhile pySpace)
  | _ => none

/-- `re.split(r'\s*,\s*', s)` (`src/download.py` line 119): fuelled
left-to-right scan cutting at each leftmost separator match and resuming
after it. -/
def reSplitCommaGo : Nat → List Char → List Char → List (List Char)
  | _, acc, [] => [acc.reverse]
  | 0, acc, rest => [acc.reverse ++ rest]
  | fuel + 1, acc, c :: cs =>
      match sepMatch (c :: cs) with
      | some r => acc.reverse :: reSplitCommaGo fuel [] r
      | none => reSplitCommaGo fuel (c :: acc) cs

def reSplitComma (s : List Char) : List (List Char) :=
  reSplitCommaGo s.length [] s

/-- The fields of the first page record used by `gen_metadata`. -/
structure PageRecord where
  title : List Char
  description : List Char
deriving DecidableEq, Repr

/-- The command-line arguments used by `gen_metadata` (`-n`, `-d`, `-t`;
each defaults to the empty string, which is falsy in Python). -/
structure Args where
  title : List Char
  desc : List Char
  tags : List Char
deriving DecidableEq, Repr

/-- The metadata record `{title, description, tags}`. -/
structure Metadata where
  title : List Char
  description : List Char
  tags : List (List Char)
deriving DecidableEq, Repr

/-- `gen_metadata(page, args)` (`src/download.py` lines 115-120).  Python
truthiness of a string is nonemptiness. -/
def genMetadata (page : PageRecord) (args : Args) : Metadata :=
  { title := if args.title ≠ [] then args.title else page.title
    description := if args.desc ≠ [] then args.desc else page.description
    tags := if args.tags ≠ [] then reSplitComma args.tags else [] }

/-! ### Declarative description of the tags split

The spec describes the tags as the "comma-split (whitespace-trimmed)"
command-line string.  The following definitions state that description
directly — split at every comma, then trim the whitespace that sat around
each comma (the left side of a comma loses its trailing whitespace, the
right side its leading whitespace; the outer ends of the whole string are
not touched, and a comma-free string is returned whole).  They are written
from the spec's words, to be compared with the `re.split(r'\s*,\s*')`
scanner `reSplitComma` embedded from the source. -/

/-- Trim leading Python whitespace. -/
def pyTrimL (t : List Char) : List Char :=
  t.dropWhile pySpace

/-- Trim trailing Python whitespace. -/
def pyTrimR (t : List Char) : List Char :=
  (t.reverse.dropWhile pySpace).reverse

/-- Trim the tokens after the first: each follows a comma, so loses its
leading whitespace; each but the last also precedes a comma, so loses its
trailing whitespace too. -/
def trimTokensTail : List (List Char) → List (List Char)
  | [] => []
  | [t] => [pyTrimL t]
  | t :: ts => pyTrimL (pyTrimR t) :: trimTokensTail ts

/-- "Comma-split, whitespace-trimmed": trim whitespace around each comma
of the already-comma-split tokens; a single token (comma-free string) is
returned whole. -/
def trimTokens : List (List Char) → List (List Char)
  | [] => []
  | [t] => [t]
  | t :: ts => pyTrimR t :: trimTokensTail ts

/-! ## Lemmas about the URL expander -/

theorem splitOnChar_ne_nil (sep : Char) (cs : List Char) : splitOnChar sep cs ≠ [] := by
  cases cs with
  | nil => simp [splitOnChar]
  | cons c cs =>
      by_cases h : c = sep <;> simp only [splitOnChar, h, if_true, if_false, reduceIte]
      · exact List.cons_ne_nil _ _
      · cases hs : splitOnChar sep cs <;> exact List.cons_ne_nil _ _

/-- One piece per separator occurrence, plus one. -/
theorem splitOnChar_length (sep : Char) (cs : List Char) :
    (splitOnChar sep cs).length = cs.count sep + 1 := by
  induction cs with
  | nil => simp [splitOnChar, List.count_nil]
  | cons c cs ih =>
      by_cases h : c = sep
      · subst h
        simp [splitOnChar, List.count_cons, ih]
      · simp only [splitOnChar, h, if_false, reduceIte]
        cases hs : splitOnChar sep cs with
        | nil => exact absurd hs (splitOnChar_ne_nil sep cs)
        | cons t ts =>
            rw [hs] at ih
            simp only [List.length_cons] at ih ⊢
            simp [List.count_cons, h, ih]

/-- Splitting a separator-free string yields the single piece. -/
theorem splitOnChar_eq_single (sep : Char) (cs : List Char) (h : sep ∉ cs) :
    splitOnChar sep cs = [cs] := by
  induction cs with
  | nil => simp [splitOnChar]
  | cons c cs ih =>
      simp only [List.mem_cons, not_or] at h
      have hc : ¬c = sep := fun hcs => h.1 hcs.symm
      simp only [splitOnChar, hc, if_false, reduceIte]
      rw [ih h.2]

/-- The comma branch of `expand_url`: with no dot-range match and a comma
match with capture `content`, the result is one URL per token of
`content.split(',')`, each obtained by `str.replace` of the whole matched
`{content}`. -/
theorem expandUrlCore_comma (url content : List Char)
    (hdot : dotSearch url = none) (hcomma : commaSearch url = some content) :
    expandUrlCore url =
      Except.ok ((splitOnChar ',' content).map
        (fun tok => replaceAll url ('{' :: content ++ ['}']) tok)) := by
  simp only [expandUrlCore, hdot, hcomma]

/-! ## Claim theorems: URL expander -/

/-- C2: when the dot-range regex finds `{[0-pad]START..END}` in the URL
(leftmost match, captures `pad`/`sd`/`ed`, whole match `old`) and
`START ≤ END`, `expand_url` returns exactly `END - START + 1` URLs in
ascending numeric order, each number zero-padded to width
`pad.length + 1`, the width inferred from the leading zeros of the start
number. -/
theorem expand_url_dot_range (url pad sd ed old : List Char)
    (hdot : dotSearch url = some (pad, sd, ed, old))
    (hle : parseNat sd ≤ parseNat ed) :
    ∃ l, expandUrlCore url = Except.ok l ∧
      l.length = parseNat ed - parseNat sd + 1 ∧
      ∀ i (hi : i < l.length),
        l.get ⟨i, hi⟩ =
          replaceAll url old (zfill (pad.length + 1) (natStr (parseNat sd + i))) := by
  refine ⟨(List.range (parseNat ed + 1 - parseNat sd)).map
      (fun i => replaceAll url old (zfill (pad.length + 1) (natStr (parseNat sd + i)))),
    ?_, ?_, ?_⟩
  · simp only [expandUrlCore, hdot]
    rw [if_neg (by omega)]
    simp [List.map_map, Function.comp]
  · simp only [List.length_map, List.length_range]
    omega
  · intro i hi
    simp only [List.length_map, List.length_range] at hi
    simp [List.get_eq_getElem, List.getElem_map, List.getElem_range]

/-- C2 witness: `expand_url("http://x.com/p{01..03}.html")` yields 3 URLs,
and they are exactly the ones ending `p01`, `p02`, `p03`. -/
theorem expand_url_dot_range_witness :
    (∃ l, expandUrlCore "http://x.com/p{01..03}.html".data = Except.ok l ∧ l.length = 3) ∧
      expandUrl "http://x.com/p{01..03}.html" =
        Except.ok ["http://x.com/p01.html", "http://x.com/p02.html", "http://x.com/p03.html"] := by
  constructor
  · obtain ⟨l, hok, hlen, -⟩ :=
      expand_url_dot_range "http://x.com/p{01..03}.html".data ['0'] ['1'] ['0', '3']
        "{01..03}".data (by decide) (by decide)
    exact ⟨l, hok, hlen.trans (by decide)⟩
  · rfl

/-- C5: when the dot-range regex finds `{START..END}` in the URL with
`START > END`, `expand_url` raises (`Except.error`) and produces no
expanded URLs. -/
theorem expand_url_negative_range (url pad sd ed old : List Char)
    (hdot : dotSearch url = some (pad, sd, ed, old))
    (hgt : parseNat ed < parseNat sd) :
    expandUrlCore url = Except.error "Negative dotexpansion not supported" := by
  simp only [expandUrlCore, hdot]
  rw [if_pos (by omega)]

/-- C5 witness: `expand_url` with `{5..1}` raises. -/
theorem expand_url_negative_range_witness :
    expandUrlCore "http://x.com/{5..1}".data =
      Except.error "Negative dotexpansion not supported" :=
  expand_url_negative_range "http://x.com/{5..1}".data [] ['5'] ['1'] "{5..1}".data
    (by decide) (by decide)

/-- C8: when no dot-range expression is present and the comma regex finds
`{content}` (leftmost match), `expand_url` returns one URL per
comma-separated token of `content`, in list order: the result has
`content.count ',' + 1` elements and its `i`-th element is the URL with
every occurrence of the matched `{content}` replaced by the `i`-th token
(an empty token just removes the brace expression). -/
theorem expand_url_comma_list (url content : List Char)
    (hdot : dotSearch url = none) (hcomma : commaSearch url = some content) :
    expandUrlCore url =
        Except.ok ((splitOnChar ',' content).map
          (fun tok => replaceAll url ('{' :: content ++ ['}']) tok)) ∧
      ((splitOnChar ',' content).map
          (fun tok => replaceAll url ('{' :: content ++ ['}']) tok)).length =
        content.count ',' + 1 := by
  constructor
  · exact expandUrlCore_comma url content hdot hcomma
  · rw [List.length_map, splitOnChar_length]

/-- C8 witness: `expand_url("http://x.com/{a,b,}")` gives
`["http://x.com/a", "http://x.com/b", "http://x.com/"]`, the empty final
token producing the URL with the brace expression removed. -/
theorem expand_url_comma_list_witness :
    expandUrlCore "http://x.com/{a,b,}".data =
        Except.ok ["http://x.com/a".data, "http://x.com/b".data, "http://x.com/".data] ∧
      ("a,b,".data.count ',' + 1 = 3) := by
  constructor
  · exact (expand_url_comma_list "http://x.com/{a,b,}".data "a,b,".data
      (by decide) (by decide)).1.trans (congrArg Except.ok (by decide))
  · decide

/-- C10: a brace group whose content has no comma (and no dot-range match
anywhere in the URL) goes through the comma branch with zero commas:
`expand_url` returns, without raising, the single URL obtained by removing
the braces and keeping the token. -/
theorem expand_url_single_token (url content : List Char)
    (hdot : dotSearch url = none) (hcomma : commaSearch url = some content)
    (hnc : ',' ∉ content) :
    expandUrlCore url =
      Except.ok [replaceAll url ('{' :: content ++ ['}']) content] := by
  have h := expandUrlCore_comma url content hdot hcomma
  rwa [splitOnChar_eq_single ',' content hnc] at h

/-- C10 witness: `expand_url("http://x.com/{abc}")` returns
`["http://x.com/abc"]`. -/
theorem expand_url_single_token_witness :
    expandUrlCore "http://x.com/{abc}".data = Except.ok ["http://x.com/abc".data] :=
  (expand_url_single_token "http://x.com/{abc}".data "abc".data
    (by decide) (by decide) (by decide)).trans (congrArg Except.ok (by decide))

/-- C3 counterexample: the claim says any second brace group is left
unexpanded in every output URL.  But the substitution is `str.replace`,
which replaces every occurrence of the matched text: on
`{a,b}x{a,b}` the outputs are `axa` and `bxb` — the second group is gone
(no `{` survives in any output), not left unexpanded as `ax{a,b}`,
`bx{a,b}`. -/
theorem expand_url_second_group_counterexample :
    expandUrlCore "{a,b}x{a,b}".data = Except.ok ["axa".data, "bxb".data] ∧
      '{' ∉ "axa".data ∧ '{' ∉ "bxb".data ∧
      "axa".data ≠ "ax{a,b}".data := by
  refine ⟨?_, by decide, by decide, by decide⟩
  rfl

/-- C3 amended: `expand_url` selects a single brace expression — the
leftmost dot-range match if any, else the leftmost comma match — and
applies exactly one expansion per call, with no nested re-expansion; but
the substitution (`str.replace`) replaces every occurrence of the matched
text, so a second brace group survives in the outputs only when it
differs textually from the matched one; a second group identical to the
first is substituted as well.  Demonstrated on: a distinct second comma
group (kept verbatim), an identical second comma group (substituted too),
a third group (kept), and a comma group coexisting with a later dot-range
(the dot-range is preferred). -/
theorem expand_url_one_expansion :
    expandUrlCore "{a,b}x{c,d}".data = Except.ok ["ax{c,d}".data, "bx{c,d}".data] ∧
      expandUrlCore "{a,b}x{a,b}".data = Except.ok ["axa".data, "bxb".data] ∧
      expandUrlCore "{a,b}{c,d}{e,f}".data =
        Except.ok ["a{c,d}{e,f}".data, "b{c,d}{e,f}".data] ∧
      expandUrlCore "u{a,b}{1..2}".data = Except.ok ["u{a,b}1".data, "u{a,b}2".data] := by
  exact ⟨rfl, rfl, rfl, rfl⟩

/-! ## Claim theorems: body sanitizer -/

/-- C1 counterexample: the claim's own example fails.  On page
`http://site.com/dir/page.html` the base URL is `http://site.com/dir/`
and the replacement keeps the href's original text, so
`<a href="/foo">` becomes `<a href="http://site.com/dir//foo">` (double
slash), not the claimed `<a href="http://site.com/dir/foo">`.  (The
"every occurrence" part of the claim also fails — see the amended
theorem — since `re.IGNORECASE` is passed as `re.sub`'s `count`.) -/
theorem sanitize_relative_link_counterexample :
    sanitizeBody "<a href=\"/foo\">" "http://site.com/dir/page.html" =
        "<a href=\"http://site.com/dir//foo\">" ∧
      "<a href=\"http://site.com/dir//foo\">" ≠ "<a href=\"http://site.com/dir/foo\">" := by
  exact ⟨rfl, by decide⟩

/-- C1 amended: the sanitizer prepends the page's base URL (all path
segments of the URL except the last, joined with `'/'`, plus a trailing
slash) to at most the FIRST TWO occurrences of `<a href="` that are not
immediately followed by `http://` or `www` (the `re.IGNORECASE` constant,
value 2, is passed as `re.sub`'s positional `count` argument, capping
replacements at two and making the match case-sensitive), keeping the
href's original text after the inserted base URL; occurrences followed by
`http://` or `www` are unchanged.  The first conjunct shows this for an
arbitrary base URL `b` on a body with three relative links (only the
first two are rewritten, `www`/`http://` links untouched); the rest
instantiates the full sanitizer: the example becomes
`<a href="http://site.com/dir//foo">`, an absolute link is unchanged, and
the base URL of the example page is `http://site.com/dir/`. -/
theorem sanitize_relative_link_amended :
    (∀ b : List Char,
      subAHref b
          "<a href=\"/a\"><a href=\"www.x\"><a href=\"/b\"><a href=\"http://y\"><a href=\"/c\">".data =
        "<a href=\"".data ++
          (b ++ ("/a\"><a href=\"www.x\"><a href=\"".data ++
            (b ++ "/b\"><a href=\"http://y\"><a href=\"/c\">".data)))) ∧
      sanitizeBody "<a href=\"/foo\">" "http://site.com/dir/page.html" =
        "<a href=\"http://site.com/dir//foo\">" ∧
      sanitizeBody "<a href=\"http://other.com\">" "http://site.com/dir/page.html" =
        "<a href=\"http://other.com\">" ∧
      baseUrlOf "http://site.com/dir/page.html".data = "http://site.com/dir/".data := by
  exact ⟨fun b => rfl, rfl, rfl, rfl⟩

/-- C7 counterexample: the claim's example fails.  Stripping
`face="Arial"` and `size="3"` from `<font color="red" face="Arial"
size="3">` leaves the whitespace that surrounded the attributes in
place: the result is `<font color="red"  >`, not the claimed
`<font color="red">`. -/
theorem sanitize_font_counterexample :
    sanitizeBody "<font color=\"red\" face=\"Arial\" size=\"3\">" "http://site.com/dir/page.html" =
        "<font color=\"red\"  >" ∧
      "<font color=\"red\"  >" ≠ "<font color=\"red\">" := by
  exact ⟨rfl, by decide⟩

/-- C7 amended: the sanitizer strips `face="…"` and `size="…"` attributes
inside `<font …>` tags, preserving the tag's other attributes but
leaving the whitespace that surrounded the stripped attribute in place —
`<font color="red" face="Arial" size="3">` becomes
`<font color="red"  >` — and each of the two substitutions applies to at
most the FIRST TWO matching tags (the `re.IGNORECASE` constant, value 2,
is passed as `re.sub`'s positional `count` argument), so with three
`face` (or `size`) attributes the third is kept. -/
theorem sanitize_font_amended :
    sanitizeBody "<font color=\"red\" face=\"Arial\" size=\"3\">" "http://site.com/dir/page.html" =
        "<font color=\"red\"  >" ∧
      sanitizeBody "<font face=\"a\">1</font><font face=\"b\">2</font><font face=\"c\">3</font>"
          "http://site.com/dir/page.html" =
        "<font >1</font><font >2</font><font face=\"c\">3</font>" ∧
      sanitizeBody "<font size=\"1\">a</font><font size=\"2\">b</font><font size=\"3\">c</font>"
          "http://site.com/dir/page.html" =
        "<font >a</font><font >b</font><font size=\"3\">c</font>" := by
  exact ⟨rfl, rfl, rfl⟩

/-! ## Claim theorems: config-entry selection -/

theorem findEntry_error_iff {α : Type} (entries : List (List Char × α)) (url : List Char) :
    findEntry entries url = Except.error "No matching config entry" ↔
      ∀ p ∈ entries, reMatchCI p.1 url = false := by
  induction entries with
  | nil =>
      constructor
      · intro _ p hp
        exact absurd hp (List.not_mem_nil p)
      · intro _
        rfl
  | cons hd rest ih =>
      obtain ⟨pat, v⟩ := hd
      have hfe : findEntry ((pat, v) :: rest) url =
          if reMatchCI pat url then Except.ok v else findEntry rest url := rfl
      cases hm : reMatchCI pat url with
      | true =>
          rw [hfe, if_pos (by rw [hm])]
          constructor
          · intro h
            exact Except.noConfusion h
          · intro h
            have hc := h (pat, v) (List.mem_cons_self _ _)
            rw [hm] at hc
            exact Bool.noConfusion hc
      | false =>
          rw [hfe, if_neg (by rw [hm]; exact Bool.false_ne_true), ih]
          constructor
          · intro h p hp
            rcases List.mem_cons.mp hp with h1 | h2
            · rw [h1]
              exact hm
            · exact h p h2
          · intro h p hp
            exact h p (List.mem_cons_of_mem _ hp)

theorem findEntry_first_match {α : Type} (url pat : List Char) (v : α)
    (pre post : List (List Char × α))
    (hpre : ∀ p ∈ pre, reMatchCI p.1 url = false) (hpat : reMatchCI pat url = true) :
    findEntry (pre ++ (pat, v) :: post) url = Except.ok v := by
  induction pre with
  | nil =>
      have hfe : findEntry ((pat, v) :: post) url =
          if reMatchCI pat url then Except.ok v else findEntry post url := rfl
      rw [List.nil_append, hfe, if_pos (by rw [hpat])]
  | cons hd pre ih =>
      obtain ⟨p0, v0⟩ := hd
      have hhd : reMatchCI p0 url = false := hpre (p0, v0) (List.mem_cons_self _ _)
      have hfe : findEntry (((p0, v0) :: pre) ++ (pat, v) :: post) url =
          if reMatchCI p0 url then Except.ok v0
          else findEntry (pre ++ (pat, v) :: post) url := rfl
      rw [hfe, if_neg (by rw [hhd]; exact Bool.false_ne_true)]
      exact ih fun p hp => hpre p (List.mem_cons_of_mem _ hp)

/-- C4: `download_page` selects the config entry whose pattern matches
the URL case-insensitively, taking the first match in config iteration
order when several candidates match, and raises (`Except.error`, fatal by
design) exactly when no entry's pattern matches. -/
theorem download_page_entry_selection {α : Type} (entries : List (List Char × α))
    (url : List Char) :
    (findEntry entries url = Except.error "No matching config entry" ↔
      ∀ p ∈ entries, reMatchCI p.1 url = false) ∧
    ∀ (pre post : List (List Char × α)) (pat : List Char) (v : α),
      entries = pre ++ (pat, v) :: post →
      (∀ p ∈ pre, reMatchCI p.1 url = false) → reMatchCI pat url = true →
      findEntry entries url = Except.ok v := by
  refine ⟨findEntry_error_iff entries url, ?_⟩
  rintro pre post pat v rfl hpre hpat
  exact findEntry_first_match url pat v pre post hpre hpat

/-- C4 witness: with entries `http://b.org → 1`, `HTTP://A.COM → 2`,
`http://a → 3` in iteration order, the URL `http://a.com/x` selects 2
(the first case-insensitive match, not the later entry 3), and a URL
matching no entry raises. -/
theorem download_page_entry_selection_witness :
    findEntry [("http://b.org".data, 1), ("HTTP://A.COM".data, 2), ("http://a".data, 3)]
        "http://a.com/x".data = Except.ok 2 ∧
      findEntry [("http://b.org".data, 1), ("HTTP://A.COM".data, 2), ("http://a".data, 3)]
        "ftp://z".data = Except.error "No matching config entry" := by
  constructor
  · exact (download_page_entry_selection
      [("http://b.org".data, 1), ("HTTP://A.COM".data, 2), ("http://a".data, 3)]
      "http://a.com/x".data).2 [("http://b.org".data, 1)] [("http://a".data, 3)]
      "HTTP://A.COM".data 2 rfl (by decide) (by decide)
  · exact (download_page_entry_selection
      [("http://b.org".data, 1), ("HTTP://A.COM".data, 2), ("http://a".data, 3)]
      "ftp://z".data).1.mpr (by decide)

/-! ## Claim theorems: page writer -/

/-- C6: for a single-page download (`N = 1`) the controls fragment is the
empty `div` and the output filename has no page-number suffix; for
`N ≥ 2` pages, 0-based page `n` (1-based page `n + 1`) gets a "Prev" link
iff `n > 0`, a `Page (n+1)/N` label, a "Next" link iff `n < N - 1`, its
own filename is `name - Page NNN.html` with the page number `n + 1`
zero-padded to 3 digits, and the Prev/Next targets are exactly the
filenames of the sibling pages `n - 1` and `n + 1` under the same
convention. -/
theorem page_controls_and_filenames (name : List Char) (n N : Nat) :
    genControls name n 1 = "<div class=\"controls\"></div>".data ∧
    outFileName name n 1 = name ++ ".html".data ∧
    (2 ≤ N → n < N →
      genControls name n N =
        "<div class=\"controls\">".data ++
          ((if n > 0 then
              "<a href=\"".data ++ outFileName name (n - 1) N ++ "\"><-- Prev</a> | ".data
            else []) ++
            "  <strong>Page ".data ++ natStr (n + 1) ++ "/".data ++ natStr N ++
            "</strong>  ".data ++
            (if n < N - 1 then
              " | <a href=\"".data ++ outFileName name (n + 1) N ++ "\">Next --></a>".data
            else [])) ++ "</div>".data ∧
      outFileName name n N = name ++ " - Page ".data ++ pad3 (n + 1) ++ ".html".data) := by
  refine ⟨by simp [genControls], by simp [outFileName], fun hN hn => ⟨?_, ?_⟩⟩
  · have hN1 : ¬N = 1 := by omega
    have hNgt : N > 1 := by omega
    rw [genControls, if_neg hN1]
    cases n with
    | zero => simp [outFileName, hNgt, pageFileName]
    | succ m =>
        simp only [outFileName, hNgt, if_pos, Nat.succ_sub_one, Nat.add_sub_cancel]
  · simp [outFileName, pageFileName, Nat.lt_of_lt_of_le Nat.one_lt_two hN]

/-- C6 witness: with title `T` and 3 pages, page 2 (0-based index 1) gets
both a Prev link to `T - Page 001.html` and a Next link to
`T - Page 003.html`, the label `Page 2/3`, and filename
`T - Page 002.html`; a single-page download gets the empty controls
fragment and the suffix-free filename `T.html`. -/
theorem page_controls_and_filenames_witness :
    genControls "T".data 1 3 =
        ("<div class=\"controls\"><a href=\"T - Page 001.html\"><-- Prev</a> | " ++
          "  <strong>Page 2/3</strong>   | <a href=\"T - Page 003.html\">Next --></a></div>").data ∧
      outFileName "T".data 1 3 = "T - Page 002.html".data ∧
      genControls "T".data 0 1 = "<div class=\"controls\"></div>".data ∧
      outFileName "T".data 0 1 = "T.html".data := by
  obtain ⟨h1, h2, h3⟩ := page_controls_and_filenames "T".data 1 3
  obtain ⟨hc, hf⟩ := h3 (by decide) (by decide)
  refine ⟨hc.trans (by decide), hf.trans (by decide), ?_, ?_⟩
  · exact (page_controls_and_filenames "T".data 0 1).1
  · exact (page_controls_and_filenames "T".data 0 1).2.1

/-! ## Claim theorems: metadata builder -/

theorem count_comma_dropWhile_pySpace (cs : List Char) :
    (cs.dropWhile pySpace).count ',' = cs.count ',' := by
  induction cs with
  | nil => rfl
  | cons c cs ih =>
      rw [List.dropWhile_cons]
      by_cases hc : pySpace c = true
      · have hcc : c ≠ ',' := by
          intro h
          rw [h] at hc
          exact Bool.noConfusion hc
        rw [if_pos hc, ih, List.count_cons]
        simp [hcc]
      · rw [if_neg hc]

theorem sepMatch_some_spec (s r : List Char) (h : sepMatch s = some r) :
    ∃ r0, s.dropWhile pySpace = ',' :: r0 ∧ r = r0.dropWhile pySpace := by
  unfold sepMatch at h
  split at h
  · rename_i r0 heq
    exact ⟨r0, heq, (Option.some.inj h).symm⟩
  · exact Option.noConfusion h

theorem sepMatch_length_lt (s r : List Char) (h : sepMatch s = some r) :
    r.length < s.length := by
  obtain ⟨r0, hd, hr⟩ := sepMatch_some_spec s r h
  have h1 : r.length ≤ r0.length := hr ▸ (List.dropWhile_sublist pySpace).length_le
  have h2 : (',' :: r0 : List Char).length ≤ s.length :=
    hd ▸ (List.dropWhile_sublist pySpace).length_le
  simp only [List.length_cons] at h2
  omega

theorem sepMatch_count (s r : List Char) (h : sepMatch s = some r) :
    s.count ',' = r.count ',' + 1 := by
  obtain ⟨r0, hd, hr⟩ := sepMatch_some_spec s r h
  have h1 : s.count ',' = (',' :: r0 : List Char).count ',' := by
    rw [← hd, count_comma_dropWhile_pySpace]
  rw [h1, List.count_cons, hr, count_comma_dropWhile_pySpace]
  simp

theorem sepMatch_none_head (c : Char) (cs : List Char)
    (h : sepMatch (c :: cs) = none) : c ≠ ',' := by
  intro hc
  subst hc
  unfold sepMatch at h
  rw [List.dropWhile_cons, if_neg (by decide)] at h
  exact Option.noConfusion h

theorem reSplitCommaGo_length (fuel : Nat) :
    ∀ (acc s : List Char), s.length ≤ fuel →
      (reSplitCommaGo fuel acc s).length = s.count ',' + 1 := by
  induction fuel with
  | zero =>
      intro acc s hs
      rw [Nat.le_zero, List.length_eq_zero] at hs
      subst hs
      rfl
  | succ fuel ih =>
      intro acc s hs
      cases s with
      | nil => rfl
      | cons c cs =>
          cases hsep : sepMatch (c :: cs) with
          | some r =>
              have hlt : r.length < (c :: cs).length := sepMatch_length_lt _ _ hsep
              have hstep : (reSplitCommaGo (fuel + 1) acc (c :: cs)) =
                  acc.reverse :: reSplitCommaGo fuel [] r := by
                simp [reSplitCommaGo, hsep]
              rw [hstep, List.length_cons,
                ih [] r (by simp only [List.length_cons] at hlt hs; omega),
                sepMatch_count _ _ hsep]
          | none =>
              have hstep : (reSplitCommaGo (fuel + 1) acc (c :: cs)) =
                  reSplitCommaGo fuel (c :: acc) cs := by
                simp [reSplitCommaGo, hsep]
              rw [hstep, ih (c :: acc) cs (by simp only [List.length_cons] at hs; omega),
                List.count_cons]
              simp [sepMatch_none_head c cs hsep]

/-- One tag per comma occurrence in the tags string, plus one. -/
theorem reSplitComma_length (s : List Char) :
    (reSplitComma s).length = s.count ',' + 1 :=
  reSplitCommaGo_length s.length [] s le_rfl

theorem pyTrimR_eq_nil_iff (t : List Char) :
    pyTrimR t = [] ↔ ∀ x ∈ t, pySpace x = true := by
  unfold pyTrimR
  rw [List.reverse_eq_nil_iff, List.dropWhile_eq_nil_iff]
  constructor
  · intro h x hx
    exact h x (List.mem_reverse.mpr hx)
  · intro h x hx
    exact h x (List.mem_reverse.mp hx)

theorem pyTrimR_cons (c : Char) (t : List Char)
    (h : pySpace c = false ∨ pyTrimR t ≠ []) :
    pyTrimR (c :: t) = c :: pyTrimR t := by
  unfold pyTrimR
  rw [List.reverse_cons, List.dropWhile_append]
  by_cases hd : (t.reverse.dropWhile pySpace).isEmpty
  · have ht : t.reverse.dropWhile pySpace = [] := by
      rwa [List.isEmpty_iff] at hd
    have hc : pySpace c = false := by
      rcases h with h | h
      · exact h
      · exact absurd (by unfold pyTrimR; rw [ht]; rfl) h
    rw [if_pos hd, List.dropWhile_cons, hc]
    simp [ht]
  · rw [if_neg hd, List.reverse_append]
    rfl

theorem pyTrimL_cons_ws (c : Char) (t : List Char) (h : pySpace c = true) :
    pyTrimL (c :: t) = pyTrimL t := by
  simp [pyTrimL, List.dropWhile_cons, h]

theorem pyTrimL_cons_not (c : Char) (t : List Char) (h : pySpace c = false) :
    pyTrimL (c :: t) = c :: t := by
  simp [pyTrimL, List.dropWhile_cons, h]

theorem pyTrim_comm (t : List Char) : pyTrimR (pyTrimL t) = pyTrimL (pyTrimR t) := by
  induction t with
  | nil => rfl
  | cons c t ih =>
      cases hc : pySpace c with
      | true =>
          rw [pyTrimL_cons_ws c t hc]
          by_cases hnil : pyTrimR t = []
          · have hallc : ∀ x ∈ c :: t, pySpace x = true := by
              intro x hx
              rcases List.mem_cons.mp hx with h1 | h2
              · rw [h1]
                exact hc
              · exact (pyTrimR_eq_nil_iff t).mp hnil x h2
            rw [ih, hnil, (pyTrimR_eq_nil_iff (c :: t)).mpr hallc]
          · rw [pyTrimR_cons c t (Or.inr hnil), pyTrimL_cons_ws c _ hc, ih]
      | false =>
          rw [pyTrimL_cons_not c t hc, pyTrimR_cons c t (Or.inl hc),
            pyTrimL_cons_not c _ hc]

theorem splitOnChar_append_comma (w v : List Char) (h : ',' ∉ w) :
    splitOnChar ',' (w ++ ',' :: v) = w :: splitOnChar ',' v := by
  induction w with
  | nil => simp [splitOnChar]
  | cons c w ih =>
      have hc : ¬ c = ',' := fun hh => h (hh ▸ List.mem_cons_self c w)
      simp only [List.cons_append, splitOnChar, hc, if_false, reduceIte, List.append_eq]
      rw [ih fun hm => h (List.mem_cons_of_mem c hm)]

theorem splitOnChar_cons_struct (cs : List Char) :
    ∀ (t0 u : List Char) (ts : List (List Char)),
      splitOnChar ',' cs = t0 :: u :: ts →
      ∃ rest, cs = t0 ++ ',' :: rest ∧ splitOnChar ',' rest = u :: ts := by
  induction cs with
  | nil =>
      intro t0 u ts h
      simp only [splitOnChar, List.cons.injEq] at h
      exact absurd h.2 (List.cons_ne_nil u ts).symm
  | cons c cs ih =>
      intro t0 u ts h
      by_cases hc : c = ','
      · subst hc
        simp only [splitOnChar, if_true, reduceIte, List.cons.injEq] at h
        obtain ⟨h1, h2⟩ := h
        refine ⟨cs, ?_, h2⟩
        rw [← h1, List.nil_append]
      · simp only [splitOnChar, hc, if_false, reduceIte] at h
        cases hs : splitOnChar ',' cs with
        | nil => exact absurd hs (splitOnChar_ne_nil ',' cs)
        | cons t ts' =>
            rw [hs] at h
            obtain ⟨h1, h2⟩ := List.cons.inj h
            obtain ⟨rest, hr1, hr2⟩ := ih t u ts (by rw [hs, h2])
            exact ⟨rest, by rw [← h1, hr1, List.cons_append], hr2⟩

theorem splitOnChar_dropWhile_pySpace (x : List Char) :
    ∀ (t0 : List Char) (ts : List (List Char)),
      splitOnChar ',' x = t0 :: ts →
      splitOnChar ',' (x.dropWhile pySpace) = pyTrimL t0 :: ts := by
  induction x with
  | nil =>
      intro t0 ts h
      simp only [splitOnChar, List.cons.injEq] at h
      rw [List.dropWhile_nil]
      rw [← h.1, ← h.2]
      rfl
  | cons c x ih =>
      intro t0 ts h
      cases hw : pySpace c with
      | true =>
          have hc : ¬ c = ',' := fun hh => by
            rw [hh] at hw
            exact Bool.noConfusion hw
          simp only [splitOnChar, hc, if_false, reduceIte] at h
          cases hs : splitOnChar ',' x with
          | nil => exact absurd hs (splitOnChar_ne_nil ',' x)
          | cons t ts' =>
              rw [hs] at h
              obtain ⟨h1, h2⟩ := List.cons.inj h
              rw [List.dropWhile_cons, if_pos hw, ih t ts' (by rw [hs, h2]),
                ← h1, pyTrimL_cons_ws c t hw, h2]
      | false =>
          rw [List.dropWhile_cons, hw]
          simp only [Bool.false_eq_true, if_false, reduceIte]
          rw [h]
          by_cases hc : c = ','
          · subst hc
            simp only [splitOnChar, if_true, reduceIte, List.cons.injEq] at h
            rw [← h.1]
            rfl
          · simp only [splitOnChar, hc, if_false, reduceIte] at h
            cases hs : splitOnChar ',' x with
            | nil => exact absurd hs (splitOnChar_ne_nil ',' x)
            | cons t ts' =>
                rw [hs] at h
                obtain ⟨h1, -⟩ := List.cons.inj h
                rw [← h1, pyTrimL_cons_not c t hw]

theorem dropWhile_append_all (p : Char → Bool) (w v : List Char)
    (h : ∀ x ∈ w, p x = true) : (w ++ v).dropWhile p = v.dropWhile p := by
  rw [List.dropWhile_append,
    if_pos (List.isEmpty_iff.mpr (List.dropWhile_eq_nil_iff.mpr h))]

/-- What the `re.split(r'\s*,\s*')` scanner computes, relative to the
plain comma split of its input: the token before the first comma loses
its trailing whitespace, the later tokens are trimmed per
`trimTokensTail`, and a comma-free input is emitted whole.  `acc` is the
(reversed) part of the current token already scanned. -/
theorem reSplitCommaGo_spec (fuel : Nat) :
    ∀ (acc s t0 : List Char) (ts : List (List Char)),
      s.length ≤ fuel → splitOnChar ',' s = t0 :: ts →
      (ts = [] → reSplitCommaGo fuel acc s = [acc.reverse ++ t0]) ∧
      (ts ≠ [] → reSplitCommaGo fuel acc s =
        (acc.reverse ++ pyTrimR t0) :: trimTokensTail ts) := by
  induction fuel with
  | zero =>
      intro acc s t0 ts hlen hsplit
      rw [Nat.le_zero, List.length_eq_zero] at hlen
      subst hlen
      simp only [splitOnChar, List.cons.injEq] at hsplit
      obtain ⟨h1, h2⟩ := hsplit
      constructor
      · intro _
        rw [← h1]
        simp [reSplitCommaGo]
      · intro hne
        exact absurd h2.symm hne
  | succ fuel ihf =>
      intro acc s t0 ts hlen hsplit
      cases s with
      | nil =>
          simp only [splitOnChar, List.cons.injEq] at hsplit
          obtain ⟨h1, h2⟩ := hsplit
          constructor
          · intro _
            rw [← h1]
            simp [reSplitCommaGo]
          · intro hne
            exact absurd h2.symm hne
      | cons c cs =>
          cases hsep : sepMatch (c :: cs) with
          | some r =>
              obtain ⟨r0, hdw, hr⟩ := sepMatch_some_spec _ _ hsep
              have hdecomp : c :: cs = (c :: cs).takeWhile pySpace ++ ',' :: r0 := by
                conv_lhs => rw [← List.takeWhile_append_dropWhile (p := pySpace) (l := c :: cs)]
                rw [hdw]
              have hwws : ∀ x ∈ (c :: cs).takeWhile pySpace, pySpace x = true :=
                fun x hx => List.mem_takeWhile_imp hx
              have hwnc : ',' ∉ (c :: cs).takeWhile pySpace := fun hm =>
                absurd (hwws ',' hm) (by decide)
              have hsplit2 : splitOnChar ',' (c :: cs) =
                  (c :: cs).takeWhile pySpace :: splitOnChar ',' r0 := by
                conv_lhs => rw [hdecomp]
                exact splitOnChar_append_comma _ r0 hwnc
              rw [hsplit2] at hsplit
              obtain ⟨ht0, hts⟩ := List.cons.inj hsplit
              have hts_ne : ts ≠ [] := by
                rw [← hts]
                exact splitOnChar_ne_nil ',' r0
              have hstep : reSplitCommaGo (fuel + 1) acc (c :: cs) =
                  acc.reverse :: reSplitCommaGo fuel [] r := by
                simp [reSplitCommaGo, hsep]
              have hrlen : r.length ≤ fuel := by
                have hlt := sepMatch_length_lt _ _ hsep
                simp only [List.length_cons] at hlt hlen
                omega
              cases hs0 : splitOnChar ',' r0 with
              | nil => exact absurd hs0 (splitOnChar_ne_nil ',' r0)
              | cons u0 us =>
                  have hsplitr : splitOnChar ',' r = pyTrimL u0 :: us := by
                    rw [hr]
                    exact splitOnChar_dropWhile_pySpace r0 u0 us hs0
                  obtain ⟨hA, hB⟩ := ihf [] r (pyTrimL u0) us hrlen hsplitr
                  have htail : reSplitCommaGo fuel [] r = trimTokensTail (u0 :: us) := by
                    cases us with
                    | nil =>
                        rw [hA rfl]
                        simp [trimTokensTail]
                    | cons u1 us' =>
                        rw [hB (List.cons_ne_nil u1 us')]
                        show ([].reverse ++ pyTrimR (pyTrimL u0)) :: trimTokensTail (u1 :: us') =
                          trimTokensTail (u0 :: u1 :: us')
                        rw [List.reverse_nil, List.nil_append, pyTrim_comm]
                        rfl
                  refine ⟨fun h => absurd h hts_ne, fun _ => ?_⟩
                  rw [hstep, htail, ← ht0, hs0.symm.trans hts,
                    (pyTrimR_eq_nil_iff _).mpr hwws, List.append_nil]
          | none =>
              have hcne : ¬ c = ',' := sepMatch_none_head c cs hsep
              have hsplitc := hsplit
              simp only [splitOnChar, hcne, if_false, reduceIte] at hsplitc
              cases hs' : splitOnChar ',' cs with
              | nil => exact absurd hs' (splitOnChar_ne_nil ',' cs)
              | cons t0' ts0 =>
                  rw [hs'] at hsplitc
                  obtain ⟨h1, h2⟩ := List.cons.inj hsplitc
                  have hstep : reSplitCommaGo (fuel + 1) acc (c :: cs) =
                      reSplitCommaGo fuel (c :: acc) cs := by
                    simp [reSplitCommaGo, hsep]
                  have hcslen : cs.length ≤ fuel := by
                    simp only [List.length_cons] at hlen
                    omega
                  obtain ⟨hA, hB⟩ := ihf (c :: acc) cs t0' ts0 hcslen hs'
                  constructor
                  · intro hts_nil
                    rw [hstep, hA (h2.trans hts_nil), ← h1]
                    simp [List.reverse_cons, List.append_assoc]
                  · intro hts_ne
                    have hts0_ne : ts0 ≠ [] := by
                      rw [h2]
                      exact hts_ne
                    have hdisj : pySpace c = false ∨ pyTrimR t0' ≠ [] := by
                      cases hpc : pySpace c with
                      | false => exact Or.inl rfl
                      | true =>
                          refine Or.inr fun hnil => ?_
                          cases ts0 with
                          | nil => exact hts0_ne rfl
                          | cons u us =>
                              obtain ⟨rest, hcs, -⟩ :=
                                splitOnChar_cons_struct cs t0' u us hs'
                              have hallws : ∀ x ∈ c :: t0', pySpace x = true := by
                                intro x hx
                                rcases List.mem_cons.mp hx with hx1 | hx2
                                · rw [hx1]
                                  exact hpc
                                · exact (pyTrimR_eq_nil_iff t0').mp hnil x hx2
                              have hdrop : List.dropWhile pySpace (c :: cs) = ',' :: rest := by
                                rw [hcs, show c :: (t0' ++ ',' :: rest) =
                                    (c :: t0') ++ ',' :: rest from rfl,
                                  dropWhile_append_all pySpace _ _ hallws,
                                  List.dropWhile_cons, if_neg (by decide)]
                              unfold sepMatch at hsep
                              rw [hdrop] at hsep
                              exact Option.noConfusion hsep
                    rw [hstep, hB hts0_ne, ← h1, ← h2, pyTrimR_cons c t0' hdisj]
                    simp [List.reverse_cons, List.append_assoc]

/-- The `re.split(r'\s*,\s*')` scanner embedded from the source equals
the spec's description: split at every comma and trim the whitespace
around each comma (a comma-free string is returned whole, untrimmed). -/
theorem reSplitComma_eq_trimTokens (s : List Char) :
    reSplitComma s = trimTokens (splitOnChar ',' s) := by
  cases hs : splitOnChar ',' s with
  | nil => exact absurd hs (splitOnChar_ne_nil ',' s)
  | cons t0 ts =>
      obtain ⟨hA, hB⟩ := reSplitCommaGo_spec s.length [] s t0 ts le_rfl hs
      cases ts with
      | nil =>
          rw [show reSplitComma s = reSplitCommaGo s.length [] s from rfl, hA rfl]
          simp [trimTokens]
      | cons u us =>
          rw [show reSplitComma s = reSplitCommaGo s.length [] s from rfl,
            hB (List.cons_ne_nil u us)]
          simp only [List.reverse_nil, List.nil_append]
          rfl

/-- C9: `gen_metadata` takes the explicit command-line title when one is
given (nonempty), else the first page record's title, and likewise for
the description; the tags are the comma-split, whitespace-trimmed
command-line string — `re.split(r'\s*,\s*')`, which splits at every comma
(one tag per comma-separated token) and trims the whitespace around each
comma (`trimTokens`) — and the empty list when no tags string is given. -/
theorem gen_metadata_fields (page : PageRecord) (args : Args) :
    ((args.title = [] → (genMetadata page args).title = page.title) ∧
      (args.title ≠ [] → (genMetadata page args).title = args.title)) ∧
    ((args.desc = [] → (genMetadata page args).description = page.description) ∧
      (args.desc ≠ [] → (genMetadata page args).description = args.desc)) ∧
    ((args.tags = [] → (genMetadata page args).tags = []) ∧
      (args.tags ≠ [] → (genMetadata page args).tags = reSplitComma args.tags ∧
        (genMetadata page args).tags.length = args.tags.count ',' + 1 ∧
        (genMetadata page args).tags = trimTokens (splitOnChar ',' args.tags))) := by
  refine ⟨⟨fun h => by simp [genMetadata, h], fun h => by simp [genMetadata, h]⟩,
    ⟨fun h => by simp [genMetadata, h], fun h => by simp [genMetadata, h]⟩,
    fun h => by simp [genMetadata, h],
    fun h => ⟨by simp [genMetadata, h], by simp [genMetadata, h, reSplitComma_length],
      by simp [genMetadata, h, reSplitComma_eq_trimTokens]⟩⟩

/-- C9 witness: with no command-line overrides the page record's title
and description are kept and the tags are empty; with explicit `-n`,
`-d` and `-t "a, b ,c"` the overrides win and the tags are the three
comma-separated, whitespace-trimmed tokens `a`, `b`, `c`. -/
theorem gen_metadata_fields_witness :
    genMetadata ⟨"PT".data, "PD".data⟩ ⟨[], [], []⟩ =
        ⟨"PT".data, "PD".data, []⟩ ∧
      genMetadata ⟨"PT".data, "PD".data⟩ ⟨"X".data, "Y".data, "a, b ,c".data⟩ =
        ⟨"X".data, "Y".data, ["a".data, "b".data, "c".data]⟩ := by
  constructor
  · obtain ⟨⟨ht, -⟩, ⟨hd, -⟩, ⟨hg, -⟩⟩ :=
      gen_metadata_fields ⟨"PT".data, "PD".data⟩ ⟨[], [], []⟩
    have heta : genMetadata (⟨"PT".data, "PD".data⟩ : PageRecord) ⟨[], [], []⟩ =
        ⟨(genMetadata (⟨"PT".data, "PD".data⟩ : PageRecord) ⟨[], [], []⟩).title,
          (genMetadata (⟨"PT".data, "PD".data⟩ : PageRecord) ⟨[], [], []⟩).description,
          (genMetadata (⟨"PT".data, "PD".data⟩ : PageRecord) ⟨[], [], []⟩).tags⟩ := rfl
    rw [heta, ht rfl, hd rfl, hg rfl]
  · obtain ⟨⟨-, ht⟩, ⟨-, hd⟩, ⟨-, hg⟩⟩ :=
      gen_metadata_fields ⟨"PT".data, "PD".data⟩ ⟨"X".data, "Y".data, "a, b ,c".data⟩
    have heta : genMetadata (⟨"PT".data, "PD".data⟩ : PageRecord)
          ⟨"X".data, "Y".data, "a, b ,c".data⟩ =
        ⟨(genMetadata (⟨"PT".data, "PD".data⟩ : PageRecord)
            ⟨"X".data, "Y".data, "a, b ,c".data⟩).title,
          (genMetadata (⟨"PT".data, "PD".data⟩ : PageRecord)
            ⟨"X".data, "Y".data, "a, b ,c".data⟩).description,
          (genMetadata (⟨"PT".data, "PD".data⟩ : PageRecord)
            ⟨"X".data, "Y".data, "a, b ,c".data⟩).tags⟩ := rfl
    rw [heta, ht (by decide), hd (by decide), (hg (by decide)).1]
    decide

end SapfoDl

